import Mathlib

/-!
Verification of the stonks stock-price updater.

We shallowly embed the price-resolution engine (`stock_fetcher.py`), the
update scheduler (`scheduler.py`) and the sheet-update logic
(`sheets_client.py`) as executable Lean definitions and prove the spec's
claims about them.

Python `float` values are modelled as rationals (`ℚ`); the claims under
study involve only exact arithmetic (comparisons with zero, averaging),
where rationals and IEEE doubles agree on the inputs of interest.
-/

set_option maxHeartbeats 1000000

namespace Stonks

/-- A Python value that may sit in a quote-record field: `None`, a numeric
value (int/float, or a string `float()` accepts — both carry the converted
rational), or junk on which `float()` raises `ValueError`/`TypeError`. -/
inductive PyVal where
  | pyNone : PyVal
  | pyNum : ℚ → PyVal
  | pyJunk : PyVal
  deriving DecidableEq, Repr

/-- `float(v)`: `some q` when the conversion succeeds, `none` when it raises. -/
def pyFloat : PyVal → Option ℚ
  | PyVal.pyNum q => some q
  | _ => none

/-- The fields of interest of the quote record returned by the provider for
one ticker (`info` dictionary). `none` means the key is absent; `some v`
means the key is present with value `v` (possibly `pyNone`). -/
structure Quote where
  currentPrice : Option PyVal := none
  regularMarketPrice : Option PyVal := none
  previousClose : Option PyVal := none
  open_ : Option PyVal := none
  bid : Option PyVal := none
  ask : Option PyVal := none
  deriving DecidableEq, Repr

/-- One direct-field step of `StockDataFetcher._extract_price_from_info`:
`if field in info and info[field] is not None: try: price = float(info[field]);
if price > 0: return price; except: continue`. -/
def tryField (v : Option PyVal) : Option ℚ :=
  match v with
  | none => none
  | some PyVal.pyNone => none
  | some v =>
    match pyFloat v with
    | some q => if q > 0 then some q else none
    | none => none

/-- The bid/ask fallback of `_extract_price_from_info`:
`bid = float(info['bid']) if info['bid'] is not None else 0` (and likewise
for ask); a raising conversion aborts the whole fallback (`except: pass`). -/
def bidAskFallback (info : Quote) : Option ℚ :=
  match info.bid, info.ask with
  | some bv, some av =>
    match (match bv with | PyVal.pyNone => some (0 : ℚ) | v => pyFloat v),
          (match av with | PyVal.pyNone => some (0 : ℚ) | v => pyFloat v) with
    | some b, some a => if b > 0 ∧ a > 0 then some ((b + a) / 2) else none
    | _, _ => none
  | _, _ => none

/-- `StockDataFetcher._extract_price_from_info`: try the direct price fields
in priority order, then the bid/ask average. -/
def extract_price_from_info (info : Quote) : Option ℚ :=
  match tryField info.currentPrice with
  | some p => some p
  | none =>
    match tryField info.regularMarketPrice with
    | some p => some p
    | none =>
      match tryField info.previousClose with
      | some p => some p
      | none =>
        match tryField info.open_ with
        | some p => some p
        | none => bidAskFallback info

/-- Modelled from the spec's words for claim C1: a field is usable when it is
present, non-null, and convertible to a float strictly greater than 0. -/
def usableSpec (v : Option PyVal) : Option ℚ :=
  match v with
  | none => none
  | some PyVal.pyNone => none
  | some v =>
    match pyFloat v with
    | some q => if 0 < q then some q else none
    | none => none

/-- Modelled from the spec's words for claim C1: the first usable value among
`currentPrice, regularMarketPrice, previousClose, open`; otherwise the mean
of `bid` and `ask` when both are present, non-null, numeric and positive;
otherwise absent. -/
def resolveSpec (info : Quote) : Option ℚ :=
  (usableSpec info.currentPrice).orElse fun _ =>
  (usableSpec info.regularMarketPrice).orElse fun _ =>
  (usableSpec info.previousClose).orElse fun _ =>
  (usableSpec info.open_).orElse fun _ =>
  match info.bid, info.ask with
  | some bv, some av =>
    match pyFloat bv, pyFloat av with
    | some b, some a => if 0 < b ∧ 0 < a then some ((b + a) / 2) else none
    | _, _ => none
  | _, _ => none

theorem tryField_eq_usableSpec (v : Option PyVal) : tryField v = usableSpec v := by
  rcases v with _ | v
  · rfl
  · cases v <;> simp [tryField, usableSpec, pyFloat]

theorem bidAskFallback_eq (info : Quote) :
    bidAskFallback info =
      match info.bid, info.ask with
      | some bv, some av =>
        match pyFloat bv, pyFloat av with
        | some b, some a => if 0 < b ∧ 0 < a then some ((b + a) / 2) else none
        | _, _ => none
      | _, _ => none := by
  rcases hb : info.bid with _ | bv <;> rcases ha : info.ask with _ | av <;>
    simp [bidAskFallback, hb, ha]
  cases bv <;> cases av <;> simp [pyFloat]

/-- C1: `resolve` returns the first field among
`currentPrice, regularMarketPrice, previousClose, open` that is present,
non-null and convertible to a float `> 0` (skipping non-numeric or `≤ 0`
fields); failing that, the mean of `bid` and `ask` when both are present,
non-null, numeric and `> 0`; otherwise absent. In particular
`{bid: 10, ask: null}` resolves to absent. -/
theorem extract_price_matches_spec :
    (∀ info : Quote, extract_price_from_info info = resolveSpec info) ∧
    extract_price_from_info { bid := some (PyVal.pyNum 10), ask := some PyVal.pyNone } = none := by
  constructor
  · intro info
    unfold extract_price_from_info resolveSpec
    rw [tryField_eq_usableSpec, tryField_eq_usableSpec, tryField_eq_usableSpec,
      tryField_eq_usableSpec, bidAskFallback_eq]
    rcases usableSpec info.currentPrice with _ | p <;>
      rcases usableSpec info.regularMarketPrice with _ | p2 <;>
      rcases usableSpec info.previousClose with _ | p3 <;>
      rcases usableSpec info.open_ with _ | p4 <;>
      simp [Option.orElse]
  · decide

/-! ## Ticker normalization and the retry loop (`StockDataFetcher.get_ticker_price`) -/

/-- Python `str.strip()`: remove leading and trailing whitespace. -/
def pyStrip (s : String) : String :=
  ⟨((s.data.dropWhile Char.isWhitespace).reverse.dropWhile Char.isWhitespace).reverse⟩

/-- Python `str.upper()` (tickers only contain ASCII, where this agrees with
Lean's `Char.toUpper`). -/
def pyUpper (s : String) : String := ⟨s.data.map Char.toUpper⟩

/-- `ticker.strip().upper()` as performed by `get_ticker_price`. -/
def normalizeTicker (t : String) : String := pyUpper (pyStrip t)

/-- Outcome of one `yf.Ticker(...).info` lookup: the call raises, returns an
empty (falsy) record, or returns a non-empty quote record. -/
inductive Lookup where
  | raise : Lookup
  | empty : Lookup
  | record : Quote → Lookup

/-- The retry sleep guard at the bottom of the loop body:
`if attempt < MAX_RETRIES - 1: time.sleep(RETRY_DELAY_SECONDS)`. -/
def attemptDelay (R a : ℕ) : ℕ := if a < R - 1 then 1 else 0

/-- The body of `get_ticker_price`'s retry loop over the listed attempt
indices, instrumented with the number of lookup invocations and of
`time.sleep` calls. An empty record triggers `continue`, which jumps to the
next iteration and hence skips the sleep at the bottom of the loop body. -/
def run_attempts (look : ℕ → Lookup) (R : ℕ) : List ℕ → Option ℚ × ℕ × ℕ
  | [] => (none, 0, 0)
  | a :: rest =>
    match look a with
    | Lookup.raise =>
      let r := run_attempts look R rest
      (r.1, r.2.1 + 1, r.2.2 + attemptDelay R a)
    | Lookup.empty =>
      let r := run_attempts look R rest
      (r.1, r.2.1 + 1, r.2.2)
    | Lookup.record q =>
      match extract_price_from_info q with
      | some p => (some p, 1, 0)
      | none =>
        let r := run_attempts look R rest
        (r.1, r.2.1 + 1, r.2.2 + attemptDelay R a)

/-- `StockDataFetcher.get_ticker_price`, instrumented: returns the price
together with the number of lookup invocations and of retry sleeps. The
lookup environment is indexed by the normalized ticker and the attempt. -/
def get_ticker_price_counted (env : String → ℕ → Lookup) (R : ℕ) (ticker : String) :
    Option ℚ × ℕ × ℕ :=
  if ticker = "" ∨ pyStrip ticker = "" then (none, 0, 0)
  else run_attempts (env (normalizeTicker ticker)) R (List.range R)

/-- `StockDataFetcher.get_ticker_price`: just the returned price. -/
def get_ticker_price (env : String → ℕ → Lookup) (R : ℕ) (ticker : String) : Option ℚ :=
  (get_ticker_price_counted env R ticker).1

/-- The price attempt `a` resolves to, if any. -/
def attemptResolves (look : ℕ → Lookup) (a : ℕ) : Option ℚ :=
  match look a with
  | Lookup.record q => extract_price_from_info q
  | _ => none

/-- The first attempt in the list that resolves to a price, with that price. -/
def firstSuccess (look : ℕ → Lookup) : List ℕ → Option (ℕ × ℚ)
  | [] => none
  | a :: rest =>
    match attemptResolves look a with
    | some p => some (a, p)
    | none => firstSuccess look rest

/-- Whether a failure at attempt `a` is followed by a retry sleep: raising
lookups and records that resolve to absent sleep; empty records do not. -/
def delayedAttempt (look : ℕ → Lookup) (a : ℕ) : Bool :=
  match look a with
  | Lookup.empty => false
  | _ => true

/-- Modelled from the amended claim C2: the fetch returns the price of the
first resolving attempt (absent if none of the `R` attempts resolves),
performs one lookup per attempt up to and including the first success, and
sleeps once after every failed non-final attempt except those that failed by
returning an empty record. -/
def fetch_spec (look : ℕ → Lookup) (R : ℕ) : Option ℚ × ℕ × ℕ :=
  match firstSuccess look (List.range R) with
  | some (a, p) => (some p, a + 1, ((List.range a).filter (delayedAttempt look)).length)
  | none => (none, R, ((List.range (R - 1)).filter (delayedAttempt look)).length)

theorem firstSuccess_mem (look : ℕ → Lookup) :
    ∀ (l : List ℕ) (a : ℕ) (p : ℚ), firstSuccess look l = some (a, p) → a ∈ l := by
  intro l
  induction l with
  | nil => intro a p h; simp [firstSuccess] at h
  | cons b rest ih =>
    intro a p h
    rw [firstSuccess] at h
    rcases hb : attemptResolves look b with _ | q
    · rw [hb] at h
      exact List.mem_cons_of_mem _ (ih a p h)
    · rw [hb] at h
      obtain ⟨rfl, rfl⟩ : b = a ∧ q = p := by simpa using h
      exact List.mem_cons_self _ _

theorem run_attempts_failure (look : ℕ → Lookup) :
    ∀ (n s : ℕ), firstSuccess look (List.range' s n) = none →
      run_attempts look (s + n) (List.range' s n) =
        (none, n, ((List.range' s (n - 1)).filter (delayedAttempt look)).length)
  | 0, s => by
    intro h
    simp [run_attempts, List.range'_zero]
  | n + 1, s => by
    intro h
    have hR : s + (n + 1) = (s + 1) + n := by omega
    rw [List.range'_succ] at h ⊢
    rw [firstSuccess] at h
    rw [hR]
    rcases hs : look s with _ | _ | q
    · have har : attemptResolves look s = none := by simp [attemptResolves, hs]
      rw [har] at h
      have ih := run_attempts_failure look n (s + 1) h
      have hdl : delayedAttempt look s = true := by simp [delayedAttempt, hs]
      simp only [run_attempts, hs, ih]
      rcases n with _ | m
      · simp [List.range'_zero, attemptDelay]
      · have hdelay : attemptDelay ((s + 1) + (m + 1)) s = 1 := by
          unfold attemptDelay
          rw [if_pos (by omega)]
        simp only [Nat.add_sub_cancel]
        rw [List.range'_succ]
        simp [List.filter_cons, hdl, hdelay]
    · have har : attemptResolves look s = none := by simp [attemptResolves, hs]
      rw [har] at h
      have ih := run_attempts_failure look n (s + 1) h
      have hdl : delayedAttempt look s = false := by simp [delayedAttempt, hs]
      simp only [run_attempts, hs, ih]
      rcases n with _ | m
      · simp [List.range'_zero]
      · simp only [Nat.add_sub_cancel]
        rw [List.range'_succ]
        simp [List.filter_cons, hdl]
    · rcases hq : extract_price_from_info q with _ | p0
      · have har : attemptResolves look s = none := by simp [attemptResolves, hs, hq]
        rw [har] at h
        have ih := run_attempts_failure look n (s + 1) h
        have hdl : delayedAttempt look s = true := by simp [delayedAttempt, hs]
        simp only [run_attempts, hs, hq, ih]
        rcases n with _ | m
        · simp [List.range'_zero, attemptDelay]
        · have hdelay : attemptDelay ((s + 1) + (m + 1)) s = 1 := by
            unfold attemptDelay
            rw [if_pos (by omega)]
          simp only [Nat.add_sub_cancel]
          rw [List.range'_succ]
          simp [List.filter_cons, hdl, hdelay]
      · have har : attemptResolves look s = some p0 := by simp [attemptResolves, hs, hq]
        rw [har] at h
        exact absurd h (by simp)

theorem run_attempts_success (look : ℕ → Lookup) :
    ∀ (n s a : ℕ) (p : ℚ), firstSuccess look (List.range' s n) = some (a, p) →
      run_attempts look (s + n) (List.range' s n) =
        (some p, a + 1 - s, ((List.range' s (a - s)).filter (delayedAttempt look)).length)
  | 0, s => by
    intro a p h
    simp [firstSuccess, List.range'_zero] at h
  | n + 1, s => by
    intro a p h
    have hR : s + (n + 1) = (s + 1) + n := by omega
    rw [List.range'_succ] at h ⊢
    rw [firstSuccess] at h
    rw [hR]
    rcases hs : look s with _ | _ | q
    · have har : attemptResolves look s = none := by simp [attemptResolves, hs]
      rw [har] at h
      have ih := run_attempts_success look n (s + 1) a p h
      have hmem := List.mem_range'_1.mp (firstSuccess_mem look _ a p h)
      have hdl : delayedAttempt look s = true := by simp [delayedAttempt, hs]
      have hdelay : attemptDelay ((s + 1) + n) s = 1 := by
        unfold attemptDelay
        rw [if_pos (by omega)]
      have hsplit : a - s = (a - (s + 1)) + 1 := by omega
      simp only [run_attempts, hs, ih]
      rw [hsplit, List.range'_succ]
      simp [List.filter_cons, hdl, hdelay]
      omega
    · have har : attemptResolves look s = none := by simp [attemptResolves, hs]
      rw [har] at h
      have ih := run_attempts_success look n (s + 1) a p h
      have hmem := List.mem_range'_1.mp (firstSuccess_mem look _ a p h)
      have hdl : delayedAttempt look s = false := by simp [delayedAttempt, hs]
      have hsplit : a - s = (a - (s + 1)) + 1 := by omega
      simp only [run_attempts, hs, ih]
      rw [hsplit, List.range'_succ]
      simp [List.filter_cons, hdl]
      omega
    · rcases hq : extract_price_from_info q with _ | p0
      · have har : attemptResolves look s = none := by simp [attemptResolves, hs, hq]
        rw [har] at h
        have ih := run_attempts_success look n (s + 1) a p h
        have hmem := List.mem_range'_1.mp (firstSuccess_mem look _ a p h)
        have hdl : delayedAttempt look s = true := by simp [delayedAttempt, hs]
        have hdelay : attemptDelay ((s + 1) + n) s = 1 := by
          unfold attemptDelay
          rw [if_pos (by omega)]
        have hsplit : a - s = (a - (s + 1)) + 1 := by omega
        simp only [run_attempts, hs, hq, ih]
        rw [hsplit, List.range'_succ]
        simp [List.filter_cons, hdl, hdelay]
        omega
      · have har : attemptResolves look s = some p0 := by simp [attemptResolves, hs, hq]
        rw [har] at h
        obtain ⟨rfl, rfl⟩ : s = a ∧ p0 = p := by simpa using h
        simp only [run_attempts, hs, hq]
        simp [Nat.sub_self, List.range'_zero, Nat.add_sub_cancel_left]

theorem run_attempts_range (look : ℕ → Lookup) (R : ℕ) :
    run_attempts look R (List.range R) = fetch_spec look R := by
  rw [fetch_spec]
  rcases hfs : firstSuccess look (List.range R) with _ | ⟨a, p⟩
  · have h := run_attempts_failure look R 0 (by rw [← List.range_eq_range']; exact hfs)
    rw [Nat.zero_add] at h
    rw [List.range_eq_range' R, h]
    simp [List.range_eq_range']
  · have h := run_attempts_success look R 0 a p (by rw [← List.range_eq_range']; exact hfs)
    rw [Nat.zero_add] at h
    rw [List.range_eq_range' R, h]
    simp [List.range_eq_range']

/-- C2 (amended): provided the normalized ticker is non-empty, the fetch
returns the price of the first resolving attempt (absent when all attempts
fail), performs one lookup per attempt up to and including the first
success, and sleeps once between consecutive attempts when the earlier
attempt failed by raising or by resolving to absent — but not when it failed
by returning an empty record, since `continue` skips the sleep — and never
sleeps after the final attempt. -/
theorem get_ticker_price_retry_and_delays (env : String → ℕ → Lookup) (R : ℕ) (t : String)
    (h : pyStrip t ≠ "") :
    get_ticker_price_counted env R t = fetch_spec (env (normalizeTicker t)) R := by
  have h0 : ¬(t = "" ∨ pyStrip t = "") := by
    rintro (rfl | h2)
    · exact h rfl
    · exact h h2
  rw [get_ticker_price_counted, if_neg h0, run_attempts_range]

/-- A lookup environment whose lookups always raise. -/
def envAlwaysRaises : String → ℕ → Lookup := fun _ _ => Lookup.raise

theorem get_ticker_price_retry_and_delays_witness :
    pyStrip "AAPL" ≠ "" ∧
      get_ticker_price_counted envAlwaysRaises 3 "AAPL" =
        fetch_spec (envAlwaysRaises (normalizeTicker "AAPL")) 3 :=
  ⟨by decide, get_ticker_price_retry_and_delays envAlwaysRaises 3 "AAPL" (by decide)⟩

/-- A lookup environment whose lookups always return an empty record. -/
def envAlwaysEmpty : String → ℕ → Lookup := fun _ _ => Lookup.empty

/-- C2 counterexample: when every attempt fails because the lookup returned
an empty (falsy) record, a `maxRetries = 3` fetch performs 3 lookups but 0
retry sleeps — not the 2 the claim requires for every failure mode — because
the `continue` taken on an empty record skips the sleep statement. -/
theorem empty_record_failures_skip_delays_cex :
    get_ticker_price_counted envAlwaysEmpty 3 "AAPL" = (none, 3, 0) ∧
      (get_ticker_price_counted envAlwaysEmpty 3 "AAPL").2.2 ≠ 2 :=
  ⟨by decide, by decide⟩

/-- C7: an empty or whitespace-only ticker short-circuits: the fetch returns
absent with zero lookup invocations and zero retry sleeps. -/
theorem empty_ticker_short_circuits (env : String → ℕ → Lookup) (R : ℕ) (t : String)
    (h : pyStrip t = "") :
    get_ticker_price_counted env R t = (none, 0, 0) := by
  rw [get_ticker_price_counted, if_pos (Or.inr h)]

theorem empty_ticker_short_circuits_witness :
    pyStrip "   " = "" ∧ get_ticker_price_counted envAlwaysRaises 5 "   " = (none, 0, 0) :=
  ⟨by decide, empty_ticker_short_circuits envAlwaysRaises 5 "   " (by decide)⟩

/-- C6 (amended): `"  aapl  "` and `"AAPL"` normalize to the same internal
key, so `get_ticker_price` treats them identically — same lookups, same
result, same counts — for every lookup environment and retry budget. (The
mapping returned by `get_multiple_prices`, however, keys the two spellings
separately; see the counterexample.) -/
theorem ticker_normalization_same_fetch (env : String → ℕ → Lookup) (R : ℕ) :
    get_ticker_price_counted env R "  aapl  " = get_ticker_price_counted env R "AAPL" := by
  have hA : ¬("  aapl  " = "" ∨ pyStrip "  aapl  " = "") := by decide
  have hB : ¬("AAPL" = "" ∨ pyStrip "AAPL" = "") := by decide
  have e1 : normalizeTicker "  aapl  " = "AAPL" := by decide
  have e2 : normalizeTicker "AAPL" = "AAPL" := by decide
  rw [get_ticker_price_counted, get_ticker_price_counted, if_neg hA, if_neg hB, e1, e2]

/-! ## Fetching multiple tickers (`StockDataFetcher.get_multiple_prices`) -/

/-- Python-dict assignment `d[k] = v` on an association list: replaces the
value at the first occurrence of `k` (keeping its position), else appends. -/
def dictInsert {α : Type} : List (String × α) → String → α → List (String × α)
  | [], k, v => [(k, v)]
  | (k', v') :: rest, k, v =>
    if k' = k then (k, v) :: rest else (k', v') :: dictInsert rest k v

/-- Python-dict lookup: `some v` when the key is present (`k in d`),
`none` when absent. -/
def dictLookup {α : Type} : List (String × α) → String → Option α
  | [], _ => none
  | (k', v') :: rest, k => if k' = k then some v' else dictLookup rest k

/-- The loop of `StockDataFetcher.get_multiple_prices`: one single-ticker
fetch per listed ticker, keyed by the *original* (unnormalized) ticker
string; falsy or whitespace-only tickers get `None` without a fetch. -/
def get_multiple_prices_go (env : String → ℕ → Lookup) (R : ℕ) :
    List String → List (String × Option ℚ) → List (String × Option ℚ)
  | [], results => results
  | t :: rest, results =>
    if t ≠ "" ∧ pyStrip t ≠ "" then
      get_multiple_prices_go env R rest (dictInsert results t (get_ticker_price env R t))
    else
      get_multiple_prices_go env R rest (dictInsert results t none)

/-- `StockDataFetcher.get_multiple_prices`, starting from `results = {}`. -/
def get_multiple_prices (env : String → ℕ → Lookup) (R : ℕ) (tickers : List String) :
    List (String × Option ℚ) :=
  get_multiple_prices_go env R tickers []

theorem get_ticker_price_falsy (env : String → ℕ → Lookup) (R : ℕ) (t : String)
    (h : ¬(t ≠ "" ∧ pyStrip t ≠ "")) : get_ticker_price env R t = none := by
  rw [get_ticker_price, get_ticker_price_counted, if_pos]
  push_neg at h
  rcases eq_or_ne t "" with rfl | hne
  · exact Or.inl rfl
  · exact Or.inr (h hne)

theorem get_multiple_prices_go_step (env : String → ℕ → Lookup) (R : ℕ) (t : String)
    (rest : List String) (res : List (String × Option ℚ)) :
    get_multiple_prices_go env R (t :: rest) res =
      get_multiple_prices_go env R rest (dictInsert res t (get_ticker_price env R t)) := by
  rw [get_multiple_prices_go]
  by_cases h : t ≠ "" ∧ pyStrip t ≠ ""
  · rw [if_pos h]
  · rw [if_neg h, get_ticker_price_falsy env R t h]

theorem dictLookup_dictInsert {α : Type} (l : List (String × α)) (k k' : String) (v : α) :
    dictLookup (dictInsert l k v) k' = if k = k' then some v else dictLookup l k' := by
  induction l with
  | nil => simp [dictInsert, dictLookup]
  | cons hd tl ih =>
    obtain ⟨k0, v0⟩ := hd
    by_cases h0 : k0 = k
    · subst h0
      rcases eq_or_ne k0 k' with rfl | h1
      · simp [dictInsert, dictLookup]
      · simp [dictInsert, dictLookup, h1]
    · rcases eq_or_ne k0 k' with rfl | h1
      · have h0' : k ≠ k0 := fun hh => h0 hh.symm
        simp [dictInsert, dictLookup, h0, h0']
      · simp [dictInsert, dictLookup, h0, h1, ih]

theorem mem_keys_dictInsert {α : Type} (l : List (String × α)) (k k' : String) (v : α) :
    k' ∈ (dictInsert l k v).map Prod.fst ↔ k' ∈ l.map Prod.fst ∨ k' = k := by
  induction l with
  | nil => simp [dictInsert]
  | cons hd tl ih =>
    obtain ⟨k0, v0⟩ := hd
    by_cases h0 : k0 = k
    · subst h0
      simp [dictInsert]
      tauto
    · simp [dictInsert, h0, ih]
      tauto

theorem nodup_keys_dictInsert {α : Type} (l : List (String × α)) (k : String) (v : α)
    (h : (l.map Prod.fst).Nodup) : ((dictInsert l k v).map Prod.fst).Nodup := by
  induction l with
  | nil => simp [dictInsert]
  | cons hd tl ih =>
    obtain ⟨k0, v0⟩ := hd
    simp only [List.map_cons, List.nodup_cons] at h
    by_cases h0 : k0 = k
    · subst h0
      simpa [dictInsert] using h
    · simp only [dictInsert, if_neg h0, List.map_cons, List.nodup_cons]
      refine ⟨fun hmem => ?_, ih h.2⟩
      rw [mem_keys_dictInsert] at hmem
      rcases hmem with hmem | rfl
      · exact h.1 hmem
      · exact h0 rfl

theorem get_multiple_prices_go_spec (env : String → ℕ → Lookup) (R : ℕ) :
    ∀ (ts : List String) (res : List (String × Option ℚ)),
      (∀ t, dictLookup (get_multiple_prices_go env R ts res) t =
        if t ∈ ts then some (get_ticker_price env R t) else dictLookup res t) ∧
      (∀ t, t ∈ (get_multiple_prices_go env R ts res).map Prod.fst ↔
        t ∈ res.map Prod.fst ∨ t ∈ ts) ∧
      ((res.map Prod.fst).Nodup →
        ((get_multiple_prices_go env R ts res).map Prod.fst).Nodup) := by
  intro ts
  induction ts with
  | nil =>
    intro res
    refine ⟨fun t => by simp [get_multiple_prices_go], fun t => by simp [get_multiple_prices_go],
      fun h => by simpa [get_multiple_prices_go] using h⟩
  | cons t0 rest ih =>
    intro res
    rw [get_multiple_prices_go_step]
    obtain ⟨ih1, ih2, ih3⟩ := ih (dictInsert res t0 (get_ticker_price env R t0))
    refine ⟨fun t => ?_, fun t => ?_, fun h => ih3 (nodup_keys_dictInsert res t0 _ h)⟩
    · rw [ih1 t, dictLookup_dictInsert]
      rcases eq_or_ne t t0 with rfl | hne
      · by_cases hmem : t ∈ rest <;> simp [hmem]
      · have hne' : t0 ≠ t := fun hh => hne hh.symm
        by_cases hmem : t ∈ rest <;> simp [hmem, hne, hne']
    · rw [ih2 t, mem_keys_dictInsert]
      simp only [List.mem_cons]
      tauto

/-- C5: the mapping returned by `get_multiple_prices` has exactly one entry
per distinct input ticker (duplicates collapse; the key set is exactly the
set of input tickers, without repetition), and each entry's value is the
result of the independent single-ticker fetch for that ticker — so one
ticker exhausting its retries yields absent for that ticker only and cannot
change another ticker's value. -/
theorem get_multiple_prices_spec (env : String → ℕ → Lookup) (R : ℕ) (tickers : List String) :
    ((get_multiple_prices env R tickers).map Prod.fst).Nodup ∧
    (∀ t, t ∈ (get_multiple_prices env R tickers).map Prod.fst ↔ t ∈ tickers) ∧
    (∀ t, t ∈ tickers →
      dictLookup (get_multiple_prices env R tickers) t = some (get_ticker_price env R t)) := by
  obtain ⟨h1, h2, h3⟩ := get_multiple_prices_go_spec env R tickers []
  refine ⟨h3 (by simp), fun t => ?_, fun t ht => ?_⟩
  · rw [get_multiple_prices, h2 t]
    simp
  · rw [get_multiple_prices, h1 t, if_pos ht]

theorem get_multiple_prices_spec_witness :
    dictLookup (get_multiple_prices envAlwaysRaises 3 ["AAPL", "AAPL"]) "AAPL" =
      some (get_ticker_price envAlwaysRaises 3 "AAPL") :=
  (get_multiple_prices_spec envAlwaysRaises 3 ["AAPL", "AAPL"]).2.2 "AAPL" (by simp)

/-- A lookup environment returning, for every ticker and attempt, a quote
whose `currentPrice` is 5. -/
def envConstQuote : String → ℕ → Lookup :=
  fun _ _ => Lookup.record { currentPrice := some (PyVal.pyNum 5) }

/-- C6 counterexample: `get_multiple_prices` keys its result by the original
ticker strings, so `"  aapl  "` and `"AAPL"` do *not* map to one and the
same entry of the returned mapping: the batch `["  aapl  ", "AAPL"]`
produces two distinct entries, one per raw spelling. -/
theorem duplicate_normalized_tickers_two_entries_cex :
    (get_multiple_prices envConstQuote 3 ["  aapl  ", "AAPL"]).map Prod.fst =
      ["  aapl  ", "AAPL"] ∧
    ("  aapl  " : String) ≠ "AAPL" :=
  ⟨by decide, by decide⟩

/-! ## The update scheduler (`scheduler.py`)

Instants are whole seconds since an (arbitrary) midnight epoch: the hour of
day is `t / 3600 % 24` and the minute within the hour is `t % 3600 / 60`,
matching `datetime`'s fields at second granularity. -/

/-- `UpdateScheduler._is_outside_market_hours`:
`hour < MARKET_OPEN_HOUR or hour >= MARKET_CLOSE_HOUR`. -/
def is_outside_market_hours (openH closeH t : ℕ) : Bool :=
  decide (t / 3600 % 24 < openH ∨ closeH ≤ t / 3600 % 24)

/-- `UpdateScheduler.should_update`: `force` short-circuits; outside market
hours no update; with no completed update (`last = none`) update; otherwise
update iff `now - last_update >= timedelta(minutes=UPDATE_INTERVAL_MINUTES)`. -/
def should_update (openH closeH intervalMin : ℕ) (last : Option ℕ) (t : ℕ)
    (force : Bool) : Bool :=
  if force then true
  else if is_outside_market_hours openH closeH t then false
  else
    match last with
    | none => true
    | some l => decide ((t : ℤ) - (l : ℤ) ≥ (intervalMin : ℤ) * 60)

/-- Modelled from the spec's words for claim C3: true when forced; false
when `now.hour < open_hour` or `now.hour ≥ close_hour`; true when no update
has ever completed; else true iff `now − last_update ≥ interval_minutes`. -/
def shouldUpdateSpec (openH closeH intervalMin : ℕ) (last : Option ℕ) (t : ℕ)
    (force : Bool) : Bool :=
  if force then true
  else if t / 3600 % 24 < openH ∨ closeH ≤ t / 3600 % 24 then false
  else
    match last with
    | none => true
    | some l => decide ((intervalMin : ℤ) * 60 ≤ (t : ℤ) - (l : ℤ))

/-- C3: `should_update` implements exactly the force / market-hours /
first-update / interval-elapsed decision chain of the claim; in particular,
with `open_hour = 9`, `close_hour = 16`, `interval_minutes = 10`: false at
08:59; true at 09:00 with no last update; false at 09:05 and true at 09:10
with last update 09:00; false at 16:00 regardless of the last update. -/
theorem should_update_matches_spec :
    (∀ (openH closeH intervalMin : ℕ) (last : Option ℕ) (t : ℕ) (force : Bool),
      should_update openH closeH intervalMin last t force =
        shouldUpdateSpec openH closeH intervalMin last t force) ∧
    should_update 9 16 10 none (8 * 3600 + 59 * 60) false = false ∧
    should_update 9 16 10 none (9 * 3600) false = true ∧
    should_update 9 16 10 (some (9 * 3600)) (9 * 3600 + 5 * 60) false = false ∧
    should_update 9 16 10 (some (9 * 3600)) (9 * 3600 + 10 * 60) false = true ∧
    (∀ last : Option ℕ, should_update 9 16 10 last (16 * 3600) false = false) ∧
    (∀ (openH closeH intervalMin : ℕ) (last : Option ℕ) (t : ℕ),
      should_update openH closeH intervalMin last t true = true) := by
  refine ⟨fun openH closeH intervalMin last t force => ?_, by decide, by decide, by decide,
    by decide, fun last => rfl, fun openH closeH intervalMin last t => rfl⟩
  cases force
  · rcases last with _ | l <;>
      simp [should_update, shouldUpdateSpec, is_outside_market_hours]
  · rfl

/-- `UpdateScheduler._calculate_wait_until_next_interval` for a
microsecond-granularity instant `t` (microseconds since an arbitrary
midnight epoch, matching `datetime`'s precision): take the minutes past the
hour, compute the next interval boundary minute, target it with
`second=0, microsecond=0` (or the top of the next hour when the boundary
reaches 60), and return `max(0, int((target - now).total_seconds()))`.
Since the target is never before `now`, Python's toward-zero `int()`
truncation coincides with the floor division `/ 1000000` used here. -/
def calculate_wait_until_next_interval (intervalMin t : ℕ) : ℤ :=
  let minutes_past_hour := t % 3600000000 / 60000000
  let next_interval := (minutes_past_hour / intervalMin + 1) * intervalMin
  let target : ℤ :=
    if 60 ≤ next_interval then (t : ℤ) - ((t % 3600000000 : ℕ) : ℤ) + 3600000000
    else (t : ℤ) - ((t % 3600000000 : ℕ) : ℤ) + (next_interval : ℕ) * 60000000
  max 0 ((target - (t : ℤ)) / 1000000)

/-- Modelled from claim C4's words: an instant (in microseconds) is an
update boundary when it is a whole minute lying an integer multiple of
`intervalMin` minutes past the top of its hour (the top of an hour is the
0th such multiple). -/
def onBoundary (intervalMin u : ℕ) : Prop :=
  u % 60000000 = 0 ∧ u / 60000000 % 60 % intervalMin = 0

instance (I u : ℕ) : Decidable (onBoundary I u) := by
  unfold onBoundary
  infer_instance

theorem lt_next_multiple (I m : ℕ) (hI : 0 < I) : m < (m / I + 1) * I := by
  have h2 : m % I < I := Nat.mod_lt _ hI
  have h3 : I * (m / I) + m % I = m := Nat.div_add_mod m I
  rw [Nat.add_mul, one_mul, Nat.mul_comm]
  omega

theorem next_multiple_le (I m j : ℕ) (hI : 0 < I) (hj : j % I = 0) (hmj : m < j) :
    (m / I + 1) * I ≤ j := by
  obtain ⟨d, rfl⟩ := Nat.dvd_of_mod_eq_zero hj
  have hd : m / I < d := by
    rw [Nat.div_lt_iff_lt_mul hI]
    calc m < I * d := hmj
    _ = d * I := Nat.mul_comm I d
  calc (m / I + 1) * I ≤ d * I := Nat.mul_le_mul_right I hd
  _ = I * d := Nat.mul_comm d I

/-- C4 (amended): the returned wait is the *truncated* number of whole
seconds from `now` to the smallest boundary strictly after `now` (an
integer multiple of `interval_minutes` past the top of the hour, rolling to
the top of the next hour when that boundary would be ≥ 60 minutes in). It
is never negative, and it is strictly positive whenever `now` is a
whole-second instant (in particular on an exact boundary the next boundary
is targeted), but when `now` lies within the final fraction of a second
before a boundary the truncation yields zero. Concretely: 180 seconds at
09:07:00.000000 and 600 seconds at 09:50:00.000000 with a 10-minute
interval. -/
theorem wait_until_next_interval_correct (I t : ℕ) (hI : 0 < I) :
    0 ≤ calculate_wait_until_next_interval I t ∧
    (∃ nb : ℕ, t < nb ∧ onBoundary I nb ∧
      (∀ u : ℕ, t < u → u < nb → ¬onBoundary I u) ∧
      calculate_wait_until_next_interval I t = ((nb : ℤ) - (t : ℤ)) / 1000000) ∧
    (t % 1000000 = 0 → 0 < calculate_wait_until_next_interval I t) ∧
    calculate_wait_until_next_interval 10 ((9 * 3600 + 7 * 60) * 1000000) = 180 ∧
    calculate_wait_until_next_interval 10 ((9 * 3600 + 50 * 60) * 1000000) = 600 := by
  have hnext_gt : t % 3600000000 / 60000000 <
      (t % 3600000000 / 60000000 / I + 1) * I :=
    lt_next_multiple I (t % 3600000000 / 60000000) hI
  by_cases hro : 60 ≤ (t % 3600000000 / 60000000 / I + 1) * I
  · -- rollover: target is the top of the next hour
    have key : calculate_wait_until_next_interval I t =
        (((3600000000 - t % 3600000000) / 1000000 : ℕ) : ℤ) := by
      simp only [calculate_wait_until_next_interval]
      rw [if_pos hro, max_eq_right (by omega)]
      omega
    refine ⟨by rw [key]; omega,
      ⟨t - t % 3600000000 + 3600000000, by omega, ⟨by omega, ?_⟩, ?_, ?_⟩,
      fun hμ => ?_, by decide, by decide⟩
    · have h0 : (t - t % 3600000000 + 3600000000) / 60000000 % 60 = 0 := by omega
      rw [h0]
      exact Nat.zero_mod I
    · intro u hu1 hu2 hb
      obtain ⟨hb1, hb2⟩ := hb
      have hmj : t % 3600000000 / 60000000 < u / 60000000 % 60 := by omega
      have hj60 : u / 60000000 % 60 < 60 := Nat.mod_lt _ (by omega)
      have := next_multiple_le I (t % 3600000000 / 60000000) (u / 60000000 % 60) hI hb2 hmj
      omega
    · rw [key]
      omega
    · rw [key]
      omega
  · -- the next multiple fits within the hour
    have key : calculate_wait_until_next_interval I t =
        ((((t % 3600000000 / 60000000 / I + 1) * I * 60000000 - t % 3600000000)
          / 1000000 : ℕ) : ℤ) := by
      simp only [calculate_wait_until_next_interval]
      rw [if_neg hro, max_eq_right (by omega)]
      omega
    refine ⟨by rw [key]; omega,
      ⟨t - t % 3600000000 + (t % 3600000000 / 60000000 / I + 1) * I * 60000000,
        by omega, ⟨by omega, ?_⟩, ?_, ?_⟩,
      fun hμ => ?_, by decide, by decide⟩
    · have h0 : (t - t % 3600000000 +
          (t % 3600000000 / 60000000 / I + 1) * I * 60000000) / 60000000 % 60 =
          (t % 3600000000 / 60000000 / I + 1) * I := by omega
      rw [h0]
      exact Nat.mul_mod_left _ I
    · intro u hu1 hu2 hb
      obtain ⟨hb1, hb2⟩ := hb
      have hmj : t % 3600000000 / 60000000 < u / 60000000 % 60 := by omega
      have hjX : u / 60000000 % 60 < (t % 3600000000 / 60000000 / I + 1) * I := by omega
      have := next_multiple_le I (t % 3600000000 / 60000000) (u / 60000000 % 60) hI hb2 hmj
      omega
    · rw [key]
      omega
    · rw [key]
      omega

theorem wait_until_next_interval_correct_witness :
    0 < 10 ∧
      (0 ≤ calculate_wait_until_next_interval 10 ((9 * 3600 + 7 * 60) * 1000000) ∧
      (∃ nb : ℕ, (9 * 3600 + 7 * 60) * 1000000 < nb ∧ onBoundary 10 nb ∧
        (∀ u : ℕ, (9 * 3600 + 7 * 60) * 1000000 < u → u < nb → ¬onBoundary 10 u) ∧
        calculate_wait_until_next_interval 10 ((9 * 3600 + 7 * 60) * 1000000) =
          ((nb : ℤ) - (((9 * 3600 + 7 * 60) * 1000000 : ℕ) : ℤ)) / 1000000) ∧
      ((9 * 3600 + 7 * 60) * 1000000 % 1000000 = 0 →
        0 < calculate_wait_until_next_interval 10 ((9 * 3600 + 7 * 60) * 1000000)) ∧
      calculate_wait_until_next_interval 10 ((9 * 3600 + 7 * 60) * 1000000) = 180 ∧
      calculate_wait_until_next_interval 10 ((9 * 3600 + 50 * 60) * 1000000) = 600) :=
  ⟨by decide, wait_until_next_interval_correct 10 ((9 * 3600 + 7 * 60) * 1000000) (by decide)⟩

/-- C4 counterexample: at 09:09:59.500000 with a 10-minute interval the
distance to the 09:10:00 boundary is half a second, and
`int((target_time - current_time).total_seconds())` truncates it to 0 — the
function returns a zero wait, refuting the claim that the returned value is
always strictly positive. -/
theorem wait_until_next_interval_zero_cex :
    calculate_wait_until_next_interval 10 ((9 * 3600 + 9 * 60 + 59) * 1000000 + 500000) = 0 ∧
    ¬(0 < calculate_wait_until_next_interval 10
        ((9 * 3600 + 9 * 60 + 59) * 1000000 + 500000)) :=
  ⟨by decide, by decide⟩

/-! ## Column letters (`SheetsClient._get_column_letter`) -/

/-- `SheetsClient._get_column_letter`: repeatedly
`col_num, remainder = divmod(col_num - 1, 26)`, prepending
`chr(65 + remainder)` until `col_num` reaches 0. -/
def get_column_letter : ℕ → String
  | 0 => ""
  | n + 1 => get_column_letter (n / 26) ++ String.singleton (Char.ofNat (65 + n % 26))
termination_by n => n
decreasing_by
  simp_wf
  omega

/-- The bijective base-26 value of a letter string (`A = 1, …, Z = 26`, a
further letter multiplies the prefix by 26): the inverse reading of the
standard column-letter scheme. -/
def columnValue (s : String) : ℕ :=
  s.data.foldl (fun acc c => acc * 26 + (c.toNat - 64)) 0

theorem toNat_ofNat_letter (r : ℕ) (hr : r < 26) : (Char.ofNat (65 + r)).toNat = 65 + r := by
  interval_cases r <;> decide

theorem data_append (s t : String) : (s ++ t).data = s.data ++ t.data := rfl

theorem get_column_letter_zero : get_column_letter 0 = "" := by
  rw [get_column_letter]

theorem columnValue_append_char (s : String) (c : Char) :
    columnValue (s ++ String.singleton c) = columnValue s * 26 + (c.toNat - 64) := by
  unfold columnValue
  rw [show (s ++ String.singleton c).data = s.data ++ [c] from data_append s _,
    List.foldl_append]
  rfl

theorem get_column_letter_value : ∀ n : ℕ, 1 ≤ n →
    (get_column_letter n).data ≠ [] ∧
    (∀ c ∈ (get_column_letter n).data, 65 ≤ c.toNat ∧ c.toNat ≤ 90) ∧
    columnValue (get_column_letter n) = n := by
  intro n
  induction n using Nat.strong_induction_on with
  | _ n ih =>
    intro h
    obtain ⟨m, rfl⟩ : ∃ m, n = m + 1 := ⟨n - 1, by omega⟩
    rw [get_column_letter]
    have hr : m % 26 < 26 := Nat.mod_lt _ (by omega)
    have hch : (Char.ofNat (65 + m % 26)).toNat = 65 + m % 26 := toNat_ofNat_letter _ hr
    by_cases hm : m / 26 = 0
    · rw [hm, get_column_letter_zero]
      refine ⟨by simp [String.singleton, data_append], ?_, ?_⟩
      · intro c hc
        rw [show (("" ++ String.singleton (Char.ofNat (65 + m % 26))).data)
            = [Char.ofNat (65 + m % 26)] from rfl] at hc
        simp at hc
        subst hc
        omega
      · rw [columnValue_append_char, hch]
        have hm26 : m < 26 := by omega
        have hv0 : columnValue "" = 0 := rfl
        rw [hv0]
        omega
    · obtain ⟨hne, hchars, hval⟩ := ih (m / 26) (by omega) (by omega)
      refine ⟨?_, ?_, ?_⟩
      · rw [data_append]
        simp [hne]
      · intro c hc
        rw [data_append] at hc
        rcases List.mem_append.mp hc with hc | hc
        · exact hchars c hc
        · rw [show (String.singleton (Char.ofNat (65 + m % 26))).data
              = [Char.ofNat (65 + m % 26)] from rfl] at hc
          simp at hc
          subst hc
          omega
      · rw [columnValue_append_char, hch, hval]
        omega

/-- C8: for every column index `n ≥ 1` the column letters are a nonempty
string over `A`–`Z` whose bijective base-26 value is exactly `n` — i.e. the
standard zero-digit-free alphabetic scheme — with `1 → A`, `26 → Z`,
`27 → AA`, `52 → AZ`, `53 → BA`, `702 → ZZ`, `703 → AAA`. -/
theorem column_letter_bijective_base26 (n : ℕ) (h : 1 ≤ n) :
    ((get_column_letter n).data ≠ [] ∧
      (∀ c ∈ (get_column_letter n).data, 65 ≤ c.toNat ∧ c.toNat ≤ 90) ∧
      columnValue (get_column_letter n) = n) ∧
    get_column_letter 1 = "A" ∧ get_column_letter 26 = "Z" ∧
    get_column_letter 27 = "AA" ∧ get_column_letter 52 = "AZ" ∧
    get_column_letter 53 = "BA" ∧ get_column_letter 702 = "ZZ" ∧
    get_column_letter 703 = "AAA" := by
  refine ⟨get_column_letter_value n h, ?_, ?_, ?_, ?_, ?_, ?_, ?_⟩ <;>
    · norm_num [get_column_letter]
      try decide

theorem column_letter_bijective_base26_witness :
    1 ≤ 28 ∧ columnValue (get_column_letter 28) = 28 :=
  ⟨by decide, (column_letter_bijective_base26 28 (by decide)).1.2.2⟩

/-! ## Exchange rate (`StockDataFetcher.get_exchange_rate`) -/

/-- `StockDataFetcher.get_exchange_rate`, instrumented with the number of
lookup invocations: a single `yf.Ticker(...).info` read with no retry loop;
returns `float(info['previousClose'])` when the record is truthy, has the
key, and the conversion succeeds — there is no positivity check — and
`None` on a raise, an empty record, a missing key, or a failing conversion
(caught by the surrounding `except`). -/
def get_exchange_rate (env : ℕ → Lookup) : Option ℚ × ℕ :=
  match env 0 with
  | Lookup.raise => (none, 1)
  | Lookup.empty => (none, 1)
  | Lookup.record r =>
    match r.previousClose with
    | some v => (pyFloat v, 1)
    | none => (none, 1)

/-- Modelled from claim C10's words: the single lookup result's
`previousClose` converted to a float with no positivity check; absent when
the lookup raises, the record is empty, or the field is missing or
non-numeric. -/
def exchangeRateSpec (res : Lookup) : Option ℚ :=
  match res with
  | Lookup.record r =>
    match r.previousClose with
    | some v => pyFloat v
    | none => none
  | _ => none

/-- C10: `get_exchange_rate` performs exactly one lookup attempt (no retry
loop) and returns the float value of `previousClose` with no positivity
check — zero or negative values come back as-is — and absent when the field
is missing, the record is empty, or the lookup raises; the resolution
fallback chain is bypassed: a record carrying only `currentPrice = 5` yields
absent here even though the price resolver would return 5. -/
theorem get_exchange_rate_single_attempt :
    (∀ env : ℕ → Lookup, get_exchange_rate env = (exchangeRateSpec (env 0), 1)) ∧
    get_exchange_rate (fun _ => Lookup.record { previousClose := some (PyVal.pyNum (-2)) }) =
      (some (-2), 1) ∧
    get_exchange_rate (fun _ => Lookup.record { previousClose := some (PyVal.pyNum 0) }) =
      (some 0, 1) ∧
    get_exchange_rate (fun _ => Lookup.record { currentPrice := some (PyVal.pyNum 5) }) =
      (none, 1) ∧
    extract_price_from_info { currentPrice := some (PyVal.pyNum 5) } = some 5 := by
  refine ⟨fun env => ?_, by decide, by decide, by decide, by decide⟩
  rcases h : env 0 with _ | _ | r
  · simp [get_exchange_rate, exchangeRateSpec, h]
  · simp [get_exchange_rate, exchangeRateSpec, h]
  · rcases hp : r.previousClose with _ | v <;>
      simp [get_exchange_rate, exchangeRateSpec, h, hp]

/-! ## Writing prices to the sheet (`SheetsClient.update_prices`) -/

/-- The batch-update list built by `SheetsClient.update_prices`: enumerate
the header-row tickers from column 1; when a ticker is a key of
`ticker_prices` with a non-`None` price, add a write of that price to the
cell `(column, price_row)`. Cells are identified by (column, row) pairs,
which is what the A1 address `_get_column_letter(col) + str(price_row)`
denotes (`get_column_letter` is injective by
`column_letter_bijective_base26`-style value inversion). -/
def build_updates (prices : List (String × Option ℚ)) (priceRow : ℕ) :
    List String → ℕ → List ((ℕ × ℕ) × ℚ)
  | [], _ => []
  | ticker :: rest, colIndex =>
    match dictLookup prices ticker with
    | some (some p) =>
      ((colIndex, priceRow), p) :: build_updates prices priceRow rest (colIndex + 1)
    | _ => build_updates prices priceRow rest (colIndex + 1)

/-- `worksheet.batch_update`: apply each (cell, value) write in order to the
sheet, modelled as a map from (column, row) to the cell's current content. -/
def applyUpdates (st : ℕ × ℕ → Option ℚ) : List ((ℕ × ℕ) × ℚ) → (ℕ × ℕ → Option ℚ)
  | [] => st
  | (c, v) :: rest => applyUpdates (fun x => if x = c then some v else st x) rest

/-- `SheetsClient.get_tickers` applied to the raw ticker row read from the
sheet: `[ticker.strip() for ticker in tickers if ticker.strip()]` — strip
each cell and drop the empty/whitespace-only ones. Note this *compacts* the
list: a dropped cell shifts every later ticker one position (hence one
enumerated column) to the left. -/
def get_tickers (row : List String) : List String :=
  (row.map pyStrip).filter (fun s => s ≠ "")

/-- `SheetsClient.update_prices` acting on a sheet state: read and clean the
header row via `get_tickers`, build the updates by enumerating the *cleaned*
list from column 1, and batch-apply them. -/
def update_prices (st : ℕ × ℕ → Option ℚ) (prices : List (String × Option ℚ))
    (row : List String) (priceRow : ℕ) : ℕ × ℕ → Option ℚ :=
  applyUpdates st (build_updates prices priceRow (get_tickers row) 1)

theorem mem_build_updates (prices : List (String × Option ℚ)) (priceRow : ℕ) :
    ∀ (ts : List String) (k c r : ℕ) (p : ℚ),
      ((c, r), p) ∈ build_updates prices priceRow ts k ↔
        r = priceRow ∧ ∃ i t, ts.get? i = some t ∧ c = k + i ∧
          dictLookup prices t = some (some p) := by
  intro ts
  induction ts with
  | nil =>
    intro k c r p
    simp [build_updates]
  | cons t0 rest ih =>
    intro k c r p
    rw [build_updates]
    rcases hlk : dictLookup prices t0 with _ | v0
    · rw [ih]
      constructor
      · rintro ⟨rfl, i, t, hget, rfl, hl⟩
        exact ⟨rfl, i + 1, t, by simpa using hget, by omega, hl⟩
      · rintro ⟨rfl, i, t, hget, rfl, hl⟩
        rcases i with _ | j
        · simp at hget
          subst hget
          rw [hlk] at hl
          cases hl
        · exact ⟨rfl, j, t, by simpa using hget, by omega, hl⟩
    · rcases v0 with _ | p0
      · rw [ih]
        constructor
        · rintro ⟨rfl, i, t, hget, rfl, hl⟩
          exact ⟨rfl, i + 1, t, by simpa using hget, by omega, hl⟩
        · rintro ⟨rfl, i, t, hget, rfl, hl⟩
          rcases i with _ | j
          · simp at hget
            subst hget
            rw [hlk] at hl
            cases hl
          · exact ⟨rfl, j, t, by simpa using hget, by omega, hl⟩
      · rw [List.mem_cons, ih]
        constructor
        · rintro (heq | ⟨rfl, i, t, hget, rfl, hl⟩)
          · obtain ⟨⟨h1, h2⟩, h3⟩ : (c = k ∧ r = priceRow) ∧ p = p0 := by
              simpa [Prod.ext_iff] using heq
            exact ⟨h2, 0, t0, by simp, by omega, by rw [hlk, h3]⟩
          · exact ⟨rfl, i + 1, t, by simpa using hget, by omega, hl⟩
        · rintro ⟨rfl, i, t, hget, rfl, hl⟩
          rcases i with _ | j
          · simp at hget
            subst hget
            rw [hlk] at hl
            obtain rfl : p0 = p := by simpa using hl
            exact Or.inl (by simp)
          · exact Or.inr ⟨rfl, j, t, by simpa using hget, by omega, hl⟩

theorem build_updates_col_lb (prices : List (String × Option ℚ)) (priceRow : ℕ)
    (ts : List String) (k c r : ℕ) (p : ℚ)
    (h : ((c, r), p) ∈ build_updates prices priceRow ts k) : k ≤ c := by
  rw [mem_build_updates] at h
  obtain ⟨-, i, t, -, rfl, -⟩ := h
  omega

theorem build_updates_nodup (prices : List (String × Option ℚ)) (priceRow : ℕ) :
    ∀ (ts : List String) (k : ℕ),
      ((build_updates prices priceRow ts k).map Prod.fst).Nodup := by
  intro ts
  induction ts with
  | nil => intro k; simp [build_updates]
  | cons t0 rest ih =>
    intro k
    rw [build_updates]
    rcases hlk : dictLookup prices t0 with _ | v0
    · exact ih (k + 1)
    · rcases v0 with _ | p0
      · exact ih (k + 1)
      · simp only [List.map_cons, List.nodup_cons]
        refine ⟨fun hmem => ?_, ih (k + 1)⟩
        obtain ⟨⟨cell, p⟩, hin, hfst⟩ := List.mem_map.mp hmem
        obtain rfl : cell = (k, priceRow) := hfst
        have := build_updates_col_lb prices priceRow rest (k + 1) k priceRow p hin
        omega

theorem applyUpdates_not_mem (ups : List ((ℕ × ℕ) × ℚ)) :
    ∀ (st : ℕ × ℕ → Option ℚ) (x : ℕ × ℕ), x ∉ ups.map Prod.fst →
      applyUpdates st ups x = st x := by
  induction ups with
  | nil => intro st x _; rfl
  | cons hd rest ih =>
    intro st x hx
    obtain ⟨c, v⟩ := hd
    simp only [List.map_cons, List.mem_cons] at hx
    push_neg at hx
    rw [applyUpdates, ih _ x hx.2, if_neg hx.1]

theorem applyUpdates_mem_unique (ups : List ((ℕ × ℕ) × ℚ)) :
    ∀ (st : ℕ × ℕ → Option ℚ) (c : ℕ × ℕ) (v : ℚ), (c, v) ∈ ups →
      (ups.map Prod.fst).Nodup → applyUpdates st ups c = some v := by
  induction ups with
  | nil => intro st c v h _; cases h
  | cons hd rest ih =>
    intro st c v hmem hnd
    obtain ⟨c0, v0⟩ := hd
    simp only [List.map_cons, List.nodup_cons] at hnd
    rcases List.mem_cons.mp hmem with heq | hmem2
    · obtain ⟨h1, h2⟩ : c0 = c ∧ v0 = v := by simpa [Prod.ext_iff] using heq.symm
      rw [← h1, ← h2, applyUpdates, applyUpdates_not_mem rest _ c0 hnd.1]
      simp
    · exact ih _ c v hmem2 hnd.2

/-- C9 (amended): `update_prices` first cleans the header row (stripping
each cell and dropping empty/whitespace cells) and enumerates the *cleaned*
ticker list from column 1. It writes the price-row cell `(1 + i, price_row)`
exactly when the `i`-th cleaned ticker is a key of the mapping with a
non-`None` price (writing that price), and leaves every other cell
unchanged — so with respect to the cleaned enumeration, absent-price and
unknown tickers are skipped rather than blanked. Because dropped empty
cells compact the enumeration, these write columns are positions in the
cleaned list, which with an empty header cell differ from the sheet
columns the headers actually occupy (see the counterexample). -/
theorem update_prices_frame (st : ℕ × ℕ → Option ℚ) (prices : List (String × Option ℚ))
    (row : List String) (priceRow : ℕ) :
    (∀ c r : ℕ,
      ¬(r = priceRow ∧ ∃ i t, (get_tickers row).get? i = some t ∧ c = 1 + i ∧
          ∃ p : ℚ, dictLookup prices t = some (some p)) →
      update_prices st prices row priceRow (c, r) = st (c, r)) ∧
    (∀ (i : ℕ) (t : String) (p : ℚ), (get_tickers row).get? i = some t →
      dictLookup prices t = some (some p) →
      update_prices st prices row priceRow (1 + i, priceRow) = some p) := by
  constructor
  · intro c r hno
    apply applyUpdates_not_mem
    intro hmem
    obtain ⟨⟨cell, p⟩, hin, hfst⟩ := List.mem_map.mp hmem
    obtain rfl : cell = (c, r) := hfst
    rw [mem_build_updates] at hin
    obtain ⟨rfl, i, t, hget, rfl, hl⟩ := hin
    exact hno ⟨rfl, i, t, hget, rfl, p, hl⟩
  · intro i t p hget hlk
    apply applyUpdates_mem_unique
    · rw [mem_build_updates]
      exact ⟨rfl, i, t, hget, rfl, hlk⟩
    · exact build_updates_nodup prices priceRow (get_tickers row) 1

theorem update_prices_frame_witness :
    update_prices (fun _ => none) [("AAPL", some 5)] ["AAPL"] 3 (1 + 0, 3) = some 5 :=
  (update_prices_frame (fun _ => none) [("AAPL", some 5)] ["AAPL"] 3).2 0 "AAPL" 5
    (by decide) (by decide)

/-- C9 counterexample: with the raw header row `["", "AAPL"]` — an empty
cell followed by `AAPL`, an expected sheet state — and the mapping
`{AAPL: 5}`, `get_tickers` drops the empty cell, so the write lands in
column 1 of the price row, whose sheet-column header is the empty cell (not
a key of the mapping, let alone with a non-absent price), while column 2 —
whose header `AAPL` is in the mapping with price 5 — is left untouched.
This refutes the claim that only cells whose column header maps to a
non-absent price are written and that all others are unchanged. -/
theorem update_prices_shifted_column_cex :
    update_prices (fun _ => none) [("AAPL", some 5)] ["", "AAPL"] 3 (1, 3) = some 5 ∧
    update_prices (fun _ => none) [("AAPL", some 5)] ["", "AAPL"] 3 (2, 3) = none ∧
    ["", "AAPL"].get? 0 = some "" ∧
    ["", "AAPL"].get? 1 = some "AAPL" ∧
    dictLookup [("AAPL", (some 5 : Option ℚ))] "" = none :=
  ⟨by decide, by decide, by decide, by decide, by decide⟩

end Stonks
